import Mathlib

/-!
Verification of the gmail-noiser repository: the domain freshness ledger of
`tracker_scanner.py` and the dedup-aware concurrent visitor of
`link_clicker.py`, shallowly embedded in Lean.

Python strings are modelled as Lean `String` (a list of characters, matching
Python's code-point semantics); substring search, slicing and case folding are
implemented explicitly below.  Timestamps are modelled as integers on a single
timeline: the scanner normalizes naive datetimes to timezone-aware ones before
every comparison, so all compared values denote instants with a total order,
which `Int` embeds.
-/

namespace GmailNoiser

/-! ## String primitives (Python `str` operations) -/

/-- First index (in characters) at which `needle` occurs in `hay`;
Python `str.find`, with `none` for `-1`. -/
def listFind (hay needle : List Char) : Option Nat :=
  match hay with
  | [] => if needle = [] then some 0 else none
  | _ :: t =>
    if needle.isPrefixOf hay then some 0
    else (listFind t needle).map (· + 1)

def strFind (hay needle : String) : Option Nat :=
  listFind hay.data needle.data

/-- Python `needle in hay` substring test. -/
def strContains (hay needle : String) : Bool :=
  (strFind hay needle).isSome

/-- Python `str.lower` (code-point case folding, ASCII-faithful). -/
def strLower (s : String) : String :=
  ⟨s.data.map Char.toLower⟩

/-- Python slice `s[a:b]` for `0 ≤ a ≤ b`. -/
def strSlice (s : String) (a b : Nat) : String :=
  ⟨(s.data.drop a).take (b - a)⟩

def strLen (s : String) : Nat := s.data.length

/-- Python `str.endswith`. -/
def strEndsWith (s suffix : String) : Bool :=
  suffix.data.isSuffixOf s.data

/-- Python `str.startswith`. -/
def strStartsWith (s pre : String) : Bool :=
  pre.data.isPrefixOf s.data

/-- Engine for `pySplit`; the fuel argument only bounds the number of scan
steps (each step consumes at least one character, so fuel `l.length`
is never exhausted for a non-empty separator). -/
def pySplitGo (sep : List Char) : Nat → List Char → List Char → List (List Char)
  | _, [], acc => [acc.reverse]
  | 0, h :: t, acc => [acc.reverse ++ h :: t]
  | fuel + 1, h :: t, acc =>
    if sep ≠ [] ∧ sep.isPrefixOf (h :: t) then
      acc.reverse :: pySplitGo sep fuel ((h :: t).drop sep.length) []
    else
      pySplitGo sep fuel t (h :: acc)

/-- Python `str.split(sep)` for a non-empty separator: greedy left-to-right
splitting, empty pieces preserved. -/
def pySplit (s sep : String) : List String :=
  (pySplitGo sep.data s.data.length s.data []).map (fun cs => ⟨cs⟩)

/-- Python `str.strip()`: whitespace removed from both ends. -/
def pyStrip (s : String) : String :=
  ⟨((s.data.dropWhile Char.isWhitespace).reverse.dropWhile Char.isWhitespace).reverse⟩

/-! ## `urllib.parse.urlparse`, modelled for the URL shapes this program
handles (`scheme://netloc/path?query#fragment`).  The scheme is lowercased;
the netloc is everything after `//` up to the first `/`, `?` or `#`;
a fragment is split off at the first `#` and a query at the first `?`.
Character case of netloc, path and query is preserved, exactly as in
CPython's `urlparse`. -/

def scheme_char (c : Char) : Bool :=
  c.isAlpha || c.isDigit || c = '+' || c = '-' || c = '.'

/-- Split a character list at the first occurrence of `c`
(the separator removed), or `none` if absent. -/
def splitAtFirstChar (c : Char) : List Char → Option (List Char × List Char)
  | [] => none
  | h :: t =>
    if h = c then some ([], t)
    else (splitAtFirstChar c t).map (fun p => (h :: p.1, p.2))

/-- Take characters until one of `stops` is reached; returns (taken, rest). -/
def spanUntilAny (stops : List Char) : List Char → List Char × List Char
  | [] => ([], [])
  | h :: t =>
    if h ∈ stops then ([], h :: t)
    else
      let p := spanUntilAny stops t
      (h :: p.1, p.2)

structure UrlParts where
  scheme : String
  netloc : String
  path : String
  query : String
  fragment : String
deriving DecidableEq, Repr

def pyUrlparse (url : String) : UrlParts :=
  let l := url.data
  let sp :=
    match splitAtFirstChar ':' l with
    | some (pre, post) =>
      if pre ≠ [] && (pre.headD ' ').isAlpha && pre.all scheme_char
      then (pre.map Char.toLower, post)
      else ([], l)
    | none => ([], l)
  let rest1 := sp.2
  let np :=
    if ['/', '/'].isPrefixOf rest1
    then spanUntilAny ['/', '?', '#'] (rest1.drop 2)
    else ([], rest1)
  let fp :=
    match splitAtFirstChar '#' np.2 with
    | some p => p
    | none => (np.2, [])
  let qp :=
    match splitAtFirstChar '?' fp.1 with
    | some p => p
    | none => (fp.1, [])
  { scheme := ⟨sp.1⟩, netloc := ⟨np.1⟩, path := ⟨qp.1⟩,
    query := ⟨qp.2⟩, fragment := ⟨fp.2⟩ }

/-! ## URL Admission Filter (`link_clicker.py`, `LinkInteractor.should_skip_url`)
and domain key (`LinkInteractor.get_domain`). -/

/-- `urlparse(url).netloc.lower()` — the Visitor's domain key. -/
def get_domain (url : String) : String :=
  strLower (pyUrlparse url).netloc

def skip_extensions : List String :=
  [".png", ".jpg", ".gif", ".ico", ".svg", ".css", ".js"]

def skip_keywords : List String :=
  ["unsubscribe", "track.", "email.", "click.", "links.",
   "notification.", "redirect.", "mail.", "news.", "link.",
   "analytics.", "pixel.", "beacon.", "open.", "image."]

/-- `LinkInteractor.should_skip_url`; note that the extension test is
`url.endswith(...)` on the raw (uncased, unparsed) URL string, while the
keyword tests run on the netloc/path of `urlparse(url.lower())`. -/
def should_skip_url (url : String) : Bool :=
  let parsed := pyUrlparse (strLower url)
  let path_lower := strLower parsed.path
  (skip_extensions.any (fun e => strEndsWith url e)) ||
  (skip_keywords.any (fun kw => strContains parsed.netloc kw)) ||
  strContains path_lower "unsub" ||
  strContains path_lower "track" ||
  strContains path_lower "proc.php" ||
  strContains path_lower "click" ||
  strContains path_lower "open" ||
  strContains path_lower "pixel" ||
  strContains path_lower "beacon" ||
  strContains path_lower "/e/" ||
  strContains path_lower "/o/" ||
  strContains path_lower "ls/click"

/-! ## Promotional-Link Detector
(`tracker_scanner.py`, `EmailLinkExtractor.is_promotional_link`). -/

def promo_indicators : List String :=
  ["offer", "deal", "discount", "save", "sale", "promo",
   "buy", "shop", "order", "purchase", "subscribe",
   "campaign", "special", "limited", "exclusive", "marketing",
   "newsletter", "unsubscribe", "click", "track", "analytics",
   "product", "store", "marketplace", "cart", "checkout",
   "catalog", "collection", "brand", "partner"]

/-- `EmailLinkExtractor.is_promotional_link`: URL-token check first, then a
window of `content_lower[max(0, i-100) : min(len, i+100)]` around the first
occurrence `i` of the lowercased URL in the lowercased body. -/
def is_promotional_link (url email_content : String) : Bool :=
  let url_lower := strLower url
  if promo_indicators.any (fun ind => strContains url_lower ind) then true
  else
    let content_lower := strLower email_content
    match strFind content_lower url_lower with
    | some url_index =>
      let window_size := 100
      let start := url_index - window_size
      let stop := min (strLen content_lower) (url_index + window_size)
      let surrounding_content := strSlice content_lower start stop
      promo_indicators.any (fun ind => strContains surrounding_content ind)
    | none => false

/-- The Promotional-Link Detector's decision rule exactly as the spec words
it: true iff (a) the lowercase URL contains a fixed keyword, or (b) the
(lowercased) URL occurs in the lowercased body and the 100-characters-each-
side window around the position of its first occurrence contains a keyword. -/
def promoLinkSpec (url email_content : String) : Prop :=
  (∃ ind ∈ promo_indicators, strContains (strLower url) ind = true) ∨
  (∃ i, strFind (strLower email_content) (strLower url) = some i ∧
    ∃ ind ∈ promo_indicators,
      strContains
        (strSlice (strLower email_content) (i - 100)
          (min (strLen (strLower email_content)) (i + 100))) ind = true)

/-! ## Domain Freshness Ledger
(`tracker_scanner.py`, `EmailLinkExtractor.update_domain_tracking`).

Python sets and dicts are modelled as insertion-ordered duplicate-free
lists and association lists; set insertion is append-if-absent, matching
membership semantics. -/

/-- One candidate tracking link found in one message, as passed to
`update_domain_tracking`: `tracking_params` is a Python dict (name → first
observed value), `click_ids` a Python set. -/
structure Obs where
  url : String
  tracking_params : List (String × String)
  timestamp : Int
  sender : String
  click_ids : List String
deriving DecidableEq, Repr

/-- One `domain_tracking` entry. -/
structure DomainData where
  latest_urls : List String
  latest_tracking_params : List (String × List String)
  latest_click_ids : List String
  latest_source_email : String
  latest_timestamp : Int
deriving DecidableEq, Repr

/-- Python `set.add`. -/
def insertIfAbsent (x : String) (l : List String) : List String :=
  if x ∈ l then l else l ++ [x]

/-- `latest_tracking_params[param].add(value)` on a `defaultdict(set)`. -/
def addParamValue (m : List (String × List String)) (kv : String × String) :
    List (String × List String) :=
  match m with
  | [] => [(kv.1, [kv.2])]
  | e :: rest =>
    if e.1 = kv.1 then (e.1, insertIfAbsent kv.2 e.2) :: rest
    else e :: addParamValue rest kv

/-- `for param, value in tracking_params.items(): ...[param].add(value)`. -/
def addParams (m : List (String × List String)) (ps : List (String × String)) :
    List (String × List String) :=
  ps.foldl addParamValue m

/-- Python `set.update`. -/
def insertAll (l : List String) (xs : List String) : List String :=
  xs.foldl (fun acc x => insertIfAbsent x acc) l

/-- The record written by the replace branch of `update_domain_tracking`
(first entry for the domain, or strictly newer timestamp). -/
def freshData (o : Obs) : DomainData :=
  { latest_urls := [o.url],
    latest_tracking_params := addParams [] o.tracking_params,
    latest_click_ids := o.click_ids,
    latest_source_email := o.sender,
    latest_timestamp := o.timestamp }

/-- The record written by the equal-timestamp branch: union the new
Observation's URL, parameter values and click ids into the existing sets;
sender and timestamp untouched. -/
def mergeData (d : DomainData) (o : Obs) : DomainData :=
  { d with latest_urls := insertIfAbsent o.url d.latest_urls,
           latest_tracking_params := addParams d.latest_tracking_params o.tracking_params,
           latest_click_ids := insertAll d.latest_click_ids o.click_ids }

/-- The `domain_tracking` map, as an insertion-ordered association list. -/
abbrev Ledger := List (String × DomainData)

def lookupD (l : Ledger) (D : String) : Option DomainData :=
  match l with
  | [] => none
  | e :: rest => if e.1 = D then some e.2 else lookupD rest D

def updateD (l : Ledger) (D : String) (d : DomainData) : Ledger :=
  l.map (fun e => if e.1 = D then (D, d) else e)

/-- `EmailLinkExtractor.update_domain_tracking`: first entry or strictly
newer timestamp replaces; equal timestamp merges; strictly older is a no-op.
(The defaulted entry a Python `defaultdict` creates on first access has
`latest_timestamp = None` and is immediately overwritten by the replace
branch, so an absent key goes straight to the replace branch here.) -/
def update_domain_tracking (l : Ledger) (domain : String) (o : Obs) : Ledger :=
  match lookupD l domain with
  | none => l ++ [(domain, freshData o)]
  | some d =>
    if d.latest_timestamp < o.timestamp then updateD l domain (freshData o)
    else if o.timestamp = d.latest_timestamp then updateD l domain (mergeData d o)
    else l

/-- Reconciling a whole sequence of observations for one domain, in the
given sequential order, starting from an empty ledger. -/
def reconcileAll (D : String) (os : List Obs) : Ledger :=
  os.foldl (fun l o => update_domain_tracking l D o) []

/-- Record-level view of one reconciliation step against an existing record. -/
def stepData (d : DomainData) (o : Obs) : DomainData :=
  if d.latest_timestamp < o.timestamp then freshData o
  else if o.timestamp = d.latest_timestamp then mergeData d o
  else d

/-! ## Ledger Exporter (`EmailLinkExtractor.save_to_csv`). -/

/-- Stable insertion step for sorting rows by `latest_timestamp` descending
(`sorted(..., reverse=True)` is stable: an earlier row stays before a later
row with the same timestamp). -/
def insertByTsDesc (p : String × DomainData) :
    List (String × DomainData) → List (String × DomainData)
  | [] => [p]
  | q :: qs =>
    if p.2.latest_timestamp < q.2.latest_timestamp then q :: insertByTsDesc p qs
    else p :: q :: qs

def sortByTsDesc (l : Ledger) : Ledger :=
  l.foldr insertByTsDesc []

/-- One exported row: Domain, Latest Timestamp, Latest Sender, Latest URLs,
Latest Tracking Parameters, Latest Click IDs; multi-valued fields joined
with the fixed delimiter. -/
def exportRow (domain : String) (d : DomainData) : List String :=
  [domain,
   toString d.latest_timestamp,
   d.latest_source_email,
   String.intercalate "; " d.latest_urls,
   String.intercalate "; "
     (d.latest_tracking_params.flatMap (fun kv => kv.2.map (fun v => kv.1 ++ "=" ++ v))),
   String.intercalate "; " d.latest_click_ids]

/-- `save_to_csv` data rows: sorted by timestamp descending; every record
produced by `update_domain_tracking` has a timestamp, so all are emitted. -/
def exportRows (l : Ledger) : List (List String) :=
  (sortByTsDesc l).map (fun p => exportRow p.1 p.2)

/-- The domain key the Scanner uses for its ledger
(`extract_links_from_email`: `urlparse(url).netloc`, case preserved). -/
def scannerDomain (url : String) : String :=
  (pyUrlparse url).netloc

/-! ## Concurrent Visitor (`link_clicker.py`, `LinkInteractor.run` /
`LinkInteractor.visit_url`).

The Visit State Store is modelled by its domain column (the only field
admission consults).  The browser is abstracted by an oracle
`nav : String → Bool` telling whether `page.goto` yields an OK response;
a missing response, a non-OK status and a navigation exception all take
the same `failed` path in the source. -/

/-- One interchange-file row, as `run` reads it: the `Latest URLs` cell
(`none` models a NaN cell) and the `Latest Timestamp` cell. -/
structure CsvRow where
  latestUrls : Option String
  latestTimestamp : String
deriving DecidableEq, Repr

/-- One `url.strip()` token of a `Latest URLs` cell, processed as in `run`:
keep it iff it starts with `http` and its domain is neither already selected
in this run nor present in the Visit State Store. -/
def processUrlToken (visited : List String)
    (acc : List String × List (String × String)) (ts rawUrl : String) :
    List String × List (String × String) :=
  let url := pyStrip rawUrl
  if strStartsWith url "http" = true then
    let domain := get_domain url
    if domain ∉ acc.1 ∧ domain ∉ visited then
      (acc.1 ++ [domain], acc.2 ++ [(url, ts)])
    else acc
  else acc

def processRow (visited : List String)
    (acc : List String × List (String × String)) (row : CsvRow) :
    List String × List (String × String) :=
  match row.latestUrls with
  | none => acc
  | some s =>
    (pySplit s ";").foldl (fun a u => processUrlToken visited a row.latestTimestamp u) acc

/-- `urls_data` as built by `LinkInteractor.run` from the interchange rows:
one `(url, originating_timestamp)` pair per fresh domain. -/
def selectUrlsData (visited : List String) (rows : List CsvRow) :
    List (String × String) :=
  (rows.foldl (processRow visited) ([], [])).2

/-- Structural engine for `chunks`: the fuel argument only bounds the number
of loop iterations (one `l.drop W` per step removes at least one element when
`0 < W`, so fuel `l.length` is never exhausted). -/
def chunksFuel (W : Nat) : Nat → List (String × String) → List (List (String × String))
  | _, [] => []
  | 0, _ :: _ => []
  | fuel + 1, x :: xs => ((x :: xs).take W) :: chunksFuel W fuel ((x :: xs).drop W)

/-- `urls_data[i:i+batch_size]` slices of the batch loop in `run`
(`for i in range(0, len(urls_data), batch_size)`). -/
def chunks (W : Nat) (l : List (String × String)) : List (List (String × String)) :=
  if W = 0 then [] else chunksFuel W l.length l

/-- `pages[j % len(pages)]` assignment: the j-th item of a batch runs on
session slot `j % W`. -/
def sessionAssignment (W : Nat) (batch : List (String × String)) :
    List ((String × String) × Nat) :=
  batch.enum.map (fun jp => (jp.2, jp.1 % W))

inductive VStatus where
  | successful
  | failed
  | skipped
deriving DecidableEq, Repr

/-- Observable events of the Visitor: a batch-loop iteration beginning, a
`page.goto` navigation being issued, and an outcome row being appended to
the Visit State Store. -/
inductive VEvent where
  | batchStart (k : Nat)
  | navigate (url : String)
  | record (domain : String) (status : VStatus)
deriving DecidableEq, Repr

/-- `LinkInteractor.visit_url`: events it emits and the store it leaves.
The admission-filter check runs first (a rejected URL is recorded `skipped`
immediately and never navigated); then the store dedup check; then the
navigation whose outcome is recorded `successful` or `failed`. -/
def visit_url (visited : List String) (nav : String → Bool) (url : String) :
    List VEvent × List String :=
  let domain := get_domain url
  if should_skip_url url then
    ([VEvent.record domain VStatus.skipped], visited ++ [domain])
  else if domain ∈ visited then
    ([], visited)
  else if nav url then
    ([VEvent.navigate url, VEvent.record domain VStatus.successful], visited ++ [domain])
  else
    ([VEvent.navigate url, VEvent.record domain VStatus.failed], visited ++ [domain])

/-- One `asyncio.gather` batch: the per-item coroutines of
`[visit_url ... for j, (url, timestamp) in enumerate(batch)]`, in list
order (the canonical interleaving of the single-threaded event loop). -/
def runBatch (visited : List String) (nav : String → Bool) :
    List (String × String) → List VEvent × List String
  | [] => ([], visited)
  | p :: ps =>
    let r := visit_url visited nav p.1
    let rest := runBatch r.2 nav ps
    (r.1 ++ rest.1, rest.2)

/-- The batch loop of `run`: per-batch event segments (the barrier between
them is `await asyncio.gather(*tasks)`) and the final store. -/
def runSegs (visited : List String) (nav : String → Bool) :
    List (List (String × String)) → List (List VEvent) × List String
  | [] => ([], visited)
  | b :: bs =>
    let r := runBatch visited nav b
    let rest := runSegs r.2 nav bs
    (r.1 :: rest.1, rest.2)

/-- Flatten per-batch segments into one trace, marking each batch's start. -/
def traceFrom (i : Nat) : List (List VEvent) → List VEvent
  | [] => []
  | s :: ss => VEvent.batchStart i :: (s ++ traceFrom (i + 1) ss)

/-- The full event trace of one `run` over already-selected `urls_data`. -/
def runTrace (W : Nat) (visited : List String) (nav : String → Bool)
    (urls : List (String × String)) : List VEvent :=
  traceFrom 0 (runSegs visited nav (chunks W urls)).1

/-- The Visit State Store contents (domain column) after one `run`. -/
def runFinalStore (W : Nat) (visited : List String) (nav : String → Bool)
    (urls : List (String × String)) : List String :=
  (runSegs visited nav (chunks W urls)).2

/-! ## Specification-side and auxiliary definitions used by the theorems -/

/-- Reading a `latest_tracking_params` association map: the value set of a
parameter name. -/
def lookupP (m : List (String × List String)) (k : String) : Option (List String) :=
  match m with
  | [] => none
  | e :: rest => if e.1 = k then some e.2 else lookupP rest k

/-- `v` is one of the recorded values of parameter `k`. -/
def memParam (k v : String) (m : List (String × List String)) : Prop :=
  ∃ vs, lookupP m k = some vs ∧ v ∈ vs

/-- Loader invariant: every selected pair's domain is in `domains_seen`, the
selected domains are pairwise distinct, and none is in the Visit State Store. -/
def selInv (visited : List String) (acc : List String × List (String × String)) : Prop :=
  (∀ p ∈ acc.2, get_domain p.1 ∈ acc.1) ∧
  acc.2.Pairwise (fun p q => get_domain p.1 ≠ get_domain q.1) ∧
  (∀ p ∈ acc.2, get_domain p.1 ∉ visited)

/-- The two events an admitted, fresh-domain item contributes: its
navigation and its recorded outcome. -/
def itemEvs (nav : String → Bool) (p : String × String) : List VEvent :=
  [VEvent.navigate p.1,
   VEvent.record (get_domain p.1)
     (if nav p.1 then VStatus.successful else VStatus.failed)]

/-! ## Concrete instances used by witnesses and counterexamples -/

/-- A ledger holding one domain with two tied-timestamp observations whose
URLs are `u1` and `u2`. -/
def c7_ledger : Ledger :=
  update_domain_tracking
    (update_domain_tracking [] "d.com"
      { url := "u1", tracking_params := [], timestamp := 5,
        sender := "s@d.com", click_ids := [] })
    "d.com"
    { url := "u2", tracking_params := [], timestamp := 5,
      sender := "s2@d.com", click_ids := [] }

def c8_base : DomainData :=
  freshData { url := "u1", tracking_params := [], timestamp := 5,
              sender := "s", click_ids := [] }

def c8_ledger : Ledger := [("d.com", c8_base)]

def c8_old : Obs :=
  { url := "u0", tracking_params := [], timestamp := 3,
    sender := "older", click_ids := [] }

def c8_tie : Obs :=
  { url := "u2", tracking_params := [], timestamp := 5,
    sender := "tied", click_ids := [] }

def c5_rows : List CsvRow :=
  [{ latestUrls := some "http://a.com/x; http://a.com/y", latestTimestamp := "t" }]

def c6_trace : List VEvent :=
  runTrace 1 [] (fun _ => true)
    [("http://a.com/x", "t"), ("http://b.com/a.png", "t")]

def c4_urls : List (String × String) :=
  [("http://a1.com/x", "t1"), ("http://a2.com/x", "t2"), ("http://a3.com/x", "t3"),
   ("http://a4.com/x", "t4"), ("http://a5.com/x", "t5")]

/-! ## Claim C3: `.png` rejection by the Admission Filter -/

/-- C3, as stated, is false: the extension test is `url.endswith('.png')` on
the raw URL string, so a query string after the extension defeats it.  Here
is a URL whose parsed path ends in `.png` yet is not rejected. -/
theorem png_with_query_not_rejected :
    strEndsWith (pyUrlparse "http://cdn.example.com/a.png?x=1").path ".png" = true ∧
    should_skip_url "http://cdn.example.com/a.png?x=1" = false := by
  exact ⟨rfl, rfl⟩

/-- C3 (amended): every URL that literally ends with `.png` (a case-sensitive
test on the whole URL string, so an uppercase extension or a trailing query
string or fragment is not caught) is rejected by the Admission Filter. -/
theorem png_suffix_rejected (url : String)
    (h : strEndsWith url ".png" = true) :
    should_skip_url url = true := by
  have hx : skip_extensions.any (fun e => strEndsWith url e) = true :=
    List.any_eq_true.mpr ⟨".png", by simp [skip_extensions], h⟩
  simp [should_skip_url, hx]

/-- Witness for C3's amended theorem: the spec's own example URL is rejected. -/
theorem png_suffix_rejected_witness :
    strEndsWith "http://cdn.example.com/a.png" ".png" = true ∧
    should_skip_url "http://cdn.example.com/a.png" = true :=
  ⟨rfl, png_suffix_rejected "http://cdn.example.com/a.png" rfl⟩

/-! ## Claim C10: Visitor domain key is lowercased, Scanner key is verbatim -/

/-- C10: the Visitor's `get_domain` is the lowercased netloc of the URL,
i.e. the lowercasing of the Scanner's verbatim `urlparse(url).netloc` key;
two URLs whose hosts differ only in letter case are one domain to the
Visitor but two distinct entries in the Scanner's ledger. -/
theorem domain_key_case_sensitivity :
    (∀ url, get_domain url = strLower (scannerDomain url)) ∧
    get_domain "http://A.example.com/p" = get_domain "http://a.example.com/p" ∧
    scannerDomain "http://A.example.com/p" ≠ scannerDomain "http://a.example.com/p" ∧
    (update_domain_tracking
        (update_domain_tracking [] (scannerDomain "http://A.example.com/p")
          { url := "http://A.example.com/p", tracking_params := [],
            timestamp := 1, sender := "s", click_ids := [] })
        (scannerDomain "http://a.example.com/p")
        { url := "http://a.example.com/p", tracking_params := [],
          timestamp := 1, sender := "s", click_ids := [] }).length = 2 :=
  ⟨fun _ => rfl, rfl, by decide, by decide⟩

/-! ## Claim C9: the Promotional-Link Detector's decision rule -/

/-- C9: `is_promotional_link` returns true iff (a) the lowercased URL
contains one of the fixed keywords, or (b) the lowercased URL occurs in the
lowercased body and the 100-characters-each-side window around its first
occurrence contains one of the same keywords; when the URL is not found in
the lowercase body, clause (b) is unavailable and only (a) applies. -/
theorem is_promotional_link_iff (url email_content : String) :
    is_promotional_link url email_content = true ↔ promoLinkSpec url email_content := by
  simp only [is_promotional_link, promoLinkSpec]
  cases ha : promo_indicators.any (fun ind => strContains (strLower url) ind) with
  | true =>
    rw [if_pos rfl]
    exact ⟨fun _ => Or.inl (List.any_eq_true.mp ha), fun _ => rfl⟩
  | false =>
    have ha' : ¬ ∃ ind ∈ promo_indicators, strContains (strLower url) ind = true := by
      intro hc
      rw [← List.any_eq_true, ha] at hc
      cases hc
    rw [if_neg Bool.false_ne_true]
    cases hf : strFind (strLower email_content) (strLower url) with
    | none =>
      simp only [hf]
      constructor
      · intro h; cases h
      · rintro (h | ⟨i, hi, -⟩)
        · exact absurd h ha'
        · cases hi
    | some i =>
      simp only [hf, List.any_eq_true, Option.some.injEq]
      constructor
      · intro h; exact Or.inr ⟨i, rfl, h⟩
      · rintro (h | ⟨i', hi', hind⟩)
        · exact absurd h ha'
        · subst hi'
          exact hind

/-! ## Claim C7: interchange round-trip for tied-timestamp URLs -/

/-- C7: exporting that ledger produces a single row whose fourth field
(`Latest URLs`) splits on the `; ` delimiter into exactly the set
of tied URLs. -/
theorem export_roundtrip_tied_urls :
    ∀ s, s ∈ pySplit (((exportRows c7_ledger).headD []).getD 3 "") "; " ↔
      (s = "u1" ∨ s = "u2") := by
  intro s
  have h : pySplit (((exportRows c7_ledger).headD []).getD 3 "") "; " = ["u1", "u2"] := by
    rfl
  rw [h]
  simp

/-! ## Set / association-map lemmas for the reconciliation algorithm -/

theorem mem_insertIfAbsent {y x : String} {l : List String} :
    y ∈ insertIfAbsent x l ↔ y = x ∨ y ∈ l := by
  unfold insertIfAbsent
  by_cases h : x ∈ l
  · rw [if_pos h]
    constructor
    · exact Or.inr
    · rintro (rfl | hy)
      · exact h
      · exact hy
  · rw [if_neg h]
    simp [or_comm]

theorem self_mem_insertIfAbsent (x : String) (l : List String) :
    x ∈ insertIfAbsent x l :=
  mem_insertIfAbsent.mpr (Or.inl rfl)

theorem mem_insertIfAbsent_of_mem {y : String} (x : String) {l : List String}
    (h : y ∈ l) : y ∈ insertIfAbsent x l :=
  mem_insertIfAbsent.mpr (Or.inr h)

theorem insertIfAbsent_of_mem {x : String} {l : List String} (h : x ∈ l) :
    insertIfAbsent x l = l := by
  unfold insertIfAbsent
  rw [if_pos h]

theorem subset_insertAll (xs : List String) :
    ∀ (l : List String) {y}, y ∈ l → y ∈ insertAll l xs := by
  induction xs with
  | nil => intro l y h; exact h
  | cons x xs ih =>
    intro l y h
    exact ih (insertIfAbsent x l) (mem_insertIfAbsent_of_mem x h)

theorem mem_insertAll_of_mem_arg {x : String} (l : List String) {xs : List String}
    (h : x ∈ xs) : x ∈ insertAll l xs := by
  induction xs generalizing l with
  | nil => cases h
  | cons z zs ih =>
    rcases List.mem_cons.mp h with rfl | hx
    · exact subset_insertAll zs _ (self_mem_insertIfAbsent x l)
    · exact ih _ hx

theorem insertAll_of_subset {xs l : List String} (h : ∀ x ∈ xs, x ∈ l) :
    insertAll l xs = l := by
  induction xs with
  | nil => rfl
  | cons x xs ih =>
    show insertAll (insertIfAbsent x l) xs = l
    rw [insertIfAbsent_of_mem (h x (List.mem_cons_self x xs))]
    exact ih (fun z hz => h z (List.mem_cons_of_mem x hz))

theorem memParam_addParamValue (m : List (String × List String))
    (kv : String × String) : memParam kv.1 kv.2 (addParamValue m kv) := by
  induction m with
  | nil =>
    exact ⟨[kv.2], by simp [addParamValue, lookupP], by simp⟩
  | cons e rest ih =>
    by_cases h : e.1 = kv.1
    · refine ⟨insertIfAbsent kv.2 e.2, ?_, self_mem_insertIfAbsent _ _⟩
      simp [addParamValue, lookupP, h]
    · obtain ⟨vs, hvs, hv⟩ := ih
      refine ⟨vs, ?_, hv⟩
      simp [addParamValue, lookupP, h, hvs]

theorem memParam_mono_addParamValue {k v : String}
    {m : List (String × List String)} (kv : String × String)
    (h : memParam k v m) : memParam k v (addParamValue m kv) := by
  induction m with
  | nil =>
    obtain ⟨vs, hvs, _⟩ := h
    cases hvs
  | cons e rest ih =>
    obtain ⟨vs, hvs, hv⟩ := h
    simp only [lookupP] at hvs
    simp only [addParamValue]
    by_cases he : e.1 = kv.1
    · rw [if_pos he]
      by_cases hk : e.1 = k
      · rw [if_pos hk] at hvs
        obtain rfl : e.2 = vs := Option.some_inj.mp hvs
        refine ⟨insertIfAbsent kv.2 e.2, ?_, mem_insertIfAbsent_of_mem _ hv⟩
        simp only [lookupP]
        rw [if_pos hk]
      · rw [if_neg hk] at hvs
        refine ⟨vs, ?_, hv⟩
        simp only [lookupP]
        rw [if_neg hk]
        exact hvs
    · rw [if_neg he]
      by_cases hk : e.1 = k
      · rw [if_pos hk] at hvs
        obtain rfl : e.2 = vs := Option.some_inj.mp hvs
        refine ⟨e.2, ?_, hv⟩
        simp only [lookupP]
        rw [if_pos hk]
      · rw [if_neg hk] at hvs
        obtain ⟨vs', hvs', hv'⟩ := ih ⟨vs, hvs, hv⟩
        refine ⟨vs', ?_, hv'⟩
        simp only [lookupP]
        rw [if_neg hk]
        exact hvs'

theorem memParam_mono_addParams {k v : String} (ps : List (String × String)) :
    ∀ {m : List (String × List String)}, memParam k v m →
      memParam k v (addParams m ps) := by
  induction ps with
  | nil => intro m h; exact h
  | cons kv ps ih =>
    intro m h
    exact ih (memParam_mono_addParamValue kv h)

theorem memParam_addParams_of_mem {kv : String × String}
    (ps : List (String × String)) (hkv : kv ∈ ps) :
    ∀ (m : List (String × List String)), memParam kv.1 kv.2 (addParams m ps) := by
  induction ps with
  | nil => cases hkv
  | cons kv' ps ih =>
    intro m
    rcases List.mem_cons.mp hkv with rfl | h
    · exact memParam_mono_addParams ps (memParam_addParamValue m kv)
    · exact ih h (addParamValue m kv')

theorem addParamValue_of_memParam {m : List (String × List String)}
    {kv : String × String} (h : memParam kv.1 kv.2 m) :
    addParamValue m kv = m := by
  induction m with
  | nil =>
    obtain ⟨vs, hvs, _⟩ := h
    cases hvs
  | cons e rest ih =>
    obtain ⟨vs, hvs, hv⟩ := h
    by_cases he : e.1 = kv.1
    · have : vs = e.2 := by
        rw [lookupP, if_pos he] at hvs
        exact (Option.some_inj.mp hvs).symm
      subst this
      rw [addParamValue, if_pos he, insertIfAbsent_of_mem hv]
    · rw [lookupP, if_neg he] at hvs
      rw [addParamValue, if_neg he, ih ⟨vs, hvs, hv⟩]

theorem addParams_of_all_mem {ps : List (String × String)}
    {m : List (String × List String)}
    (h : ∀ kv ∈ ps, memParam kv.1 kv.2 m) : addParams m ps = m := by
  induction ps with
  | nil => rfl
  | cons kv ps ih =>
    show addParams (addParamValue m kv) ps = m
    rw [addParamValue_of_memParam (h kv (List.mem_cons_self kv ps))]
    exact ih (fun z hz => h z (List.mem_cons_of_mem kv hz))

/-! ## Ledger lemmas -/

theorem mergeData_timestamp (d : DomainData) (o : Obs) :
    (mergeData d o).latest_timestamp = d.latest_timestamp := rfl

theorem freshData_timestamp (o : Obs) :
    (freshData o).latest_timestamp = o.timestamp := rfl

/-- Merging an observation into the record it itself freshly created
changes nothing. -/
theorem mergeData_freshData (o : Obs) : mergeData (freshData o) o = freshData o := by
  have h1 : insertIfAbsent o.url [o.url] = [o.url] :=
    insertIfAbsent_of_mem (List.mem_singleton.mpr rfl)
  have h2 : addParams (addParams [] o.tracking_params) o.tracking_params =
      addParams [] o.tracking_params :=
    addParams_of_all_mem (fun kv hkv => memParam_addParams_of_mem _ hkv [])
  have h3 : insertAll o.click_ids o.click_ids = o.click_ids :=
    insertAll_of_subset (fun _ hx => hx)
  simp [mergeData, freshData, h1, h2, h3]

/-- Merging the same observation twice is the same as merging it once. -/
theorem mergeData_mergeData (d : DomainData) (o : Obs) :
    mergeData (mergeData d o) o = mergeData d o := by
  have h1 : insertIfAbsent o.url (insertIfAbsent o.url d.latest_urls) =
      insertIfAbsent o.url d.latest_urls :=
    insertIfAbsent_of_mem (self_mem_insertIfAbsent _ _)
  have h2 : addParams (addParams d.latest_tracking_params o.tracking_params)
      o.tracking_params =
      addParams d.latest_tracking_params o.tracking_params :=
    addParams_of_all_mem (fun kv hkv => memParam_addParams_of_mem _ hkv _)
  have h3 : insertAll (insertAll d.latest_click_ids o.click_ids) o.click_ids =
      insertAll d.latest_click_ids o.click_ids :=
    insertAll_of_subset (fun x hx => mem_insertAll_of_mem_arg _ hx)
  simp [mergeData, h1, h2, h3]

theorem lookupD_none_keys {l : Ledger} {D : String}
    (h : lookupD l D = none) : ∀ e ∈ l, e.1 ≠ D := by
  induction l with
  | nil => intro e he; cases he
  | cons e rest ih =>
    intro e' he'
    simp only [lookupD] at h
    by_cases hD : e.1 = D
    · rw [if_pos hD] at h; cases h
    · rw [if_neg hD] at h
      rcases List.mem_cons.mp he' with rfl | hm
      · exact hD
      · exact ih h e' hm

theorem lookupD_append_single {l : Ledger} {D : String} (d : DomainData)
    (h : lookupD l D = none) : lookupD (l ++ [(D, d)]) D = some d := by
  induction l with
  | nil => simp [lookupD]
  | cons e rest ih =>
    simp only [lookupD] at h ⊢
    by_cases hD : e.1 = D
    · rw [if_pos hD] at h; cases h
    · rw [if_neg hD] at h ⊢
      exact ih h

theorem updateD_of_lookupD_none {l : Ledger} {D : String} (d : DomainData)
    (h : lookupD l D = none) : updateD l D d = l := by
  have hk := lookupD_none_keys h
  unfold updateD
  induction l with
  | nil => rfl
  | cons e rest ih =>
    simp only [List.map_cons]
    rw [if_neg (hk e (List.mem_cons_self e rest))]
    congr 1
    exact ih (by
      simp only [lookupD] at h
      rw [if_neg (hk e (List.mem_cons_self e rest))] at h
      exact h) (fun e' he' => hk e' (List.mem_cons_of_mem e he'))

theorem lookupD_updateD {l : Ledger} {D : String} {d : DomainData}
    (x : DomainData) (h : lookupD l D = some d) :
    lookupD (updateD l D x) D = some x := by
  induction l with
  | nil => cases h
  | cons e rest ih =>
    simp only [lookupD] at h
    simp only [updateD, List.map_cons]
    by_cases hD : e.1 = D
    · rw [if_pos hD]
      simp [lookupD]
    · rw [if_neg hD] at h
      rw [if_neg hD]
      simp only [lookupD]
      rw [if_neg hD]
      exact ih h

theorem updateD_updateD (l : Ledger) (D : String) (x y : DomainData) :
    updateD (updateD l D x) D y = updateD l D y := by
  unfold updateD
  rw [List.map_map]
  apply List.map_congr_left
  intro e _
  by_cases hD : e.1 = D
  · simp [hD]
  · simp [hD]

theorem updateD_append (l l' : Ledger) (D : String) (x : DomainData) :
    updateD (l ++ l') D x = updateD l D x ++ updateD l' D x :=
  List.map_append _ _ _

/-! ## Claim C2: reconciliation is idempotent -/

/-- C2: reconciling the same observation twice in a row leaves exactly the
ledger (hence the DomainRecord, all fields) that one reconciliation leaves. -/
theorem reconcile_idempotent (l : Ledger) (D : String) (o : Obs) :
    update_domain_tracking (update_domain_tracking l D o) D o =
      update_domain_tracking l D o := by
  cases h : lookupD l D with
  | none =>
    have h1 : update_domain_tracking l D o = l ++ [(D, freshData o)] := by
      simp [update_domain_tracking, h]
    rw [h1]
    have h2 : lookupD (l ++ [(D, freshData o)]) D = some (freshData o) :=
      lookupD_append_single _ h
    simp only [update_domain_tracking, h2, freshData_timestamp, lt_irrefl,
      if_false, if_pos rfl, if_neg (lt_irrefl o.timestamp), mergeData_freshData]
    rw [updateD_append, updateD_of_lookupD_none _ h]
    simp [updateD]
  | some d =>
    rcases lt_trichotomy d.latest_timestamp o.timestamp with hlt | heq | hgt
    · have h1 : update_domain_tracking l D o = updateD l D (freshData o) := by
        simp [update_domain_tracking, h, hlt]
      rw [h1]
      have h2 : lookupD (updateD l D (freshData o)) D = some (freshData o) :=
        lookupD_updateD _ h
      simp only [update_domain_tracking, h2, freshData_timestamp,
        if_neg (lt_irrefl o.timestamp), if_pos rfl, mergeData_freshData,
        updateD_updateD]
      simp
    · have hcond : ¬ d.latest_timestamp < o.timestamp := by omega
      have h1 : update_domain_tracking l D o = updateD l D (mergeData d o) := by
        simp [update_domain_tracking, h, hcond, heq.symm]
      rw [h1]
      have h2 : lookupD (updateD l D (mergeData d o)) D = some (mergeData d o) :=
        lookupD_updateD _ h
      have hts : (mergeData d o).latest_timestamp = o.timestamp := by
        rw [mergeData_timestamp, heq]
      simp only [update_domain_tracking, h2, hts,
        if_neg (lt_irrefl o.timestamp), if_pos rfl, mergeData_mergeData,
        updateD_updateD]
      simp
    · have hcond1 : ¬ d.latest_timestamp < o.timestamp := by omega
      have hcond2 : ¬ o.timestamp = d.latest_timestamp := by omega
      have h1 : update_domain_tracking l D o = l := by
        simp [update_domain_tracking, h, hcond1, hcond2]
      rw [h1]
      exact h1

/-! ## Claim C8: frame conditions of reconciliation -/

/-- C8: against an existing record, a strictly older observation is a
complete no-op, and an equal-timestamp observation leaves the sender and
timestamp unchanged while the URL, click-id and tracking-parameter sets can
only grow. -/
theorem reconcile_frame (l : Ledger) (D : String) (d : DomainData) (o : Obs)
    (h : lookupD l D = some d) :
    (o.timestamp < d.latest_timestamp → update_domain_tracking l D o = l) ∧
    (o.timestamp = d.latest_timestamp →
      ∃ d', lookupD (update_domain_tracking l D o) D = some d' ∧
        d'.latest_source_email = d.latest_source_email ∧
        d'.latest_timestamp = d.latest_timestamp ∧
        (∀ u ∈ d.latest_urls, u ∈ d'.latest_urls) ∧
        (∀ c ∈ d.latest_click_ids, c ∈ d'.latest_click_ids) ∧
        (∀ k v, memParam k v d.latest_tracking_params →
          memParam k v d'.latest_tracking_params)) := by
  constructor
  · intro hlt
    have hcond1 : ¬ d.latest_timestamp < o.timestamp := by omega
    have hcond2 : ¬ o.timestamp = d.latest_timestamp := by omega
    simp [update_domain_tracking, h, hcond1, hcond2]
  · intro heq
    have hcond1 : ¬ d.latest_timestamp < o.timestamp := by omega
    have h1 : update_domain_tracking l D o = updateD l D (mergeData d o) := by
      simp [update_domain_tracking, h, hcond1, heq]
    refine ⟨mergeData d o, ?_, rfl, rfl, ?_, ?_, ?_⟩
    · rw [h1]; exact lookupD_updateD _ h
    · exact fun u hu => mem_insertIfAbsent_of_mem _ hu
    · exact fun c hc => subset_insertAll _ _ hc
    · exact fun k v hkv => memParam_mono_addParams _ hkv

/-- Witness for C8 at a concrete ledger: a strictly older observation
leaves the ledger untouched, and an equal-timestamp observation keeps the
sender while growing the URL set. -/
theorem reconcile_frame_witness :
    (update_domain_tracking c8_ledger "d.com" c8_old = c8_ledger) ∧
    (∃ d', lookupD (update_domain_tracking c8_ledger "d.com" c8_tie) "d.com" = some d' ∧
      d'.latest_source_email = c8_base.latest_source_email ∧
      d'.latest_timestamp = c8_base.latest_timestamp ∧
      (∀ u ∈ c8_base.latest_urls, u ∈ d'.latest_urls) ∧
      (∀ c ∈ c8_base.latest_click_ids, c ∈ d'.latest_click_ids) ∧
      (∀ k v, memParam k v c8_base.latest_tracking_params →
        memParam k v d'.latest_tracking_params)) :=
  ⟨(reconcile_frame c8_ledger "d.com" c8_base c8_old (by decide)).1 (by decide),
   (reconcile_frame c8_ledger "d.com" c8_base c8_tie (by decide)).2 rfl⟩

/-! ## Claim C1: the ledger record is the max-timestamp summary -/

/-- Reconciling into a singleton ledger for the same domain stays a
singleton ledger and acts on the record by `stepData`. -/
theorem update_singleton (D : String) (d : DomainData) (o : Obs) :
    update_domain_tracking [(D, d)] D o = [(D, stepData d o)] := by
  have hl : lookupD [(D, d)] D = some d := by
    simp [lookupD]
  simp only [update_domain_tracking, hl, stepData]
  by_cases h1 : d.latest_timestamp < o.timestamp
  · rw [if_pos h1, if_pos h1]
    simp [updateD]
  · rw [if_neg h1, if_neg h1]
    by_cases h2 : o.timestamp = d.latest_timestamp
    · rw [if_pos h2, if_pos h2]
      simp [updateD]
    · rw [if_neg h2, if_neg h2]

theorem foldl_update_singleton (D : String) (os : List Obs) :
    ∀ d : DomainData,
      os.foldl (fun l o => update_domain_tracking l D o) [(D, d)] =
        [(D, os.foldl stepData d)] := by
  induction os with
  | nil => intro d; rfl
  | cons o os ih =>
    intro d
    rw [List.foldl_cons, List.foldl_cons, update_singleton]
    exact ih (stepData d o)

/-- One `stepData` step preserves the C1 invariant: the record's timestamp
is the max of the processed observations' timestamps, and the URL set is
exactly the URLs observed at that max. -/
theorem stepData_inv (d : DomainData) (P : List Obs) (o : Obs)
    (h1 : d.latest_timestamp ∈ P.map Obs.timestamp)
    (h2 : ∀ t ∈ P.map Obs.timestamp, t ≤ d.latest_timestamp)
    (h3 : ∀ u, u ∈ d.latest_urls ↔
      ∃ o' ∈ P, o'.timestamp = d.latest_timestamp ∧ o'.url = u) :
    (stepData d o).latest_timestamp ∈ (P ++ [o]).map Obs.timestamp ∧
    (∀ t ∈ (P ++ [o]).map Obs.timestamp, t ≤ (stepData d o).latest_timestamp) ∧
    (∀ u, u ∈ (stepData d o).latest_urls ↔
      ∃ o' ∈ P ++ [o], o'.timestamp = (stepData d o).latest_timestamp ∧
        o'.url = u) := by
  unfold stepData
  rcases lt_trichotomy d.latest_timestamp o.timestamp with hlt | heq | hgt
  · rw [if_pos hlt]
    refine ⟨by simp [freshData], ?_, ?_⟩
    · intro t ht
      rw [List.map_append] at ht
      rcases List.mem_append.mp ht with ht | ht
      · have := h2 t ht
        simp only [freshData_timestamp]
        omega
      · simp only [List.map_cons, List.map_nil, List.mem_singleton] at ht
        simp [freshData, ht]
    · intro u
      simp only [freshData]
      constructor
      · intro hu
        rcases List.mem_singleton.mp hu with rfl
        exact ⟨o, by simp, rfl, rfl⟩
      · rintro ⟨o', ho', hts, hurl⟩
        rcases List.mem_append.mp ho' with ho' | ho'
        · have hle : o'.timestamp ≤ d.latest_timestamp :=
            h2 _ (List.mem_map.mpr ⟨o', ho', rfl⟩)
          exact absurd hts (by omega)
        · simp only [List.mem_singleton] at ho'
          subst ho'
          simp [← hurl]
  · have hcond : ¬ d.latest_timestamp < o.timestamp := by omega
    rw [if_neg hcond, if_pos heq.symm]
    refine ⟨?_, ?_, ?_⟩
    · rw [mergeData_timestamp, List.map_append]
      exact List.mem_append.mpr (Or.inl h1)
    · intro t ht
      rw [List.map_append] at ht
      rw [mergeData_timestamp]
      rcases List.mem_append.mp ht with ht | ht
      · exact h2 t ht
      · simp only [List.map_cons, List.map_nil, List.mem_singleton] at ht
        omega
    · intro u
      rw [mergeData_timestamp]
      show u ∈ insertIfAbsent o.url d.latest_urls ↔ _
      rw [mem_insertIfAbsent]
      constructor
      · rintro (rfl | hu)
        · exact ⟨o, by simp, heq.symm, rfl⟩
        · obtain ⟨o', ho', hts, hurl⟩ := (h3 u).mp hu
          exact ⟨o', List.mem_append.mpr (Or.inl ho'), hts, hurl⟩
      · rintro ⟨o', ho', hts, hurl⟩
        rcases List.mem_append.mp ho' with ho' | ho'
        · exact Or.inr ((h3 u).mpr ⟨o', ho', hts, hurl⟩)
        · simp only [List.mem_singleton] at ho'
          subst ho'
          exact Or.inl hurl.symm
  · have hcond1 : ¬ d.latest_timestamp < o.timestamp := by omega
    have hcond2 : ¬ o.timestamp = d.latest_timestamp := by omega
    rw [if_neg hcond1, if_neg hcond2]
    refine ⟨?_, ?_, ?_⟩
    · rw [List.map_append]
      exact List.mem_append.mpr (Or.inl h1)
    · intro t ht
      rw [List.map_append] at ht
      rcases List.mem_append.mp ht with ht | ht
      · exact h2 t ht
      · simp only [List.map_cons, List.map_nil, List.mem_singleton] at ht
        omega
    · intro u
      rw [h3 u]
      constructor
      · rintro ⟨o', ho', hts, hurl⟩
        exact ⟨o', List.mem_append.mpr (Or.inl ho'), hts, hurl⟩
      · rintro ⟨o', ho', hts, hurl⟩
        rcases List.mem_append.mp ho' with ho' | ho'
        · exact ⟨o', ho', hts, hurl⟩
        · simp only [List.mem_singleton] at ho'
          subst ho'
          omega

theorem foldl_stepData_inv (os : List Obs) :
    ∀ (d : DomainData) (P : List Obs),
      d.latest_timestamp ∈ P.map Obs.timestamp →
      (∀ t ∈ P.map Obs.timestamp, t ≤ d.latest_timestamp) →
      (∀ u, u ∈ d.latest_urls ↔
        ∃ o' ∈ P, o'.timestamp = d.latest_timestamp ∧ o'.url = u) →
      (os.foldl stepData d).latest_timestamp ∈ (P ++ os).map Obs.timestamp ∧
      (∀ t ∈ (P ++ os).map Obs.timestamp,
        t ≤ (os.foldl stepData d).latest_timestamp) ∧
      (∀ u, u ∈ (os.foldl stepData d).latest_urls ↔
        ∃ o' ∈ P ++ os, o'.timestamp = (os.foldl stepData d).latest_timestamp ∧
          o'.url = u) := by
  induction os with
  | nil =>
    intro d P h1 h2 h3
    simp only [List.foldl_nil, List.append_nil]
    exact ⟨h1, h2, h3⟩
  | cons o os ih =>
    intro d P h1 h2 h3
    obtain ⟨g1, g2, g3⟩ := stepData_inv d P o h1 h2 h3
    have h := ih (stepData d o) (P ++ [o]) g1 g2 g3
    rw [List.foldl_cons, List.append_cons]
    exact h

/-- C1: after reconciling any non-empty sequence of observations for a
domain (in that sequential order, from an empty ledger), the record's
`latest_timestamp` is the maximum observed timestamp and `latest_urls` is
exactly the set of URLs of the observations achieving that maximum. -/
theorem ledger_latest_is_max (D : String) (os : List Obs) (hne : os ≠ []) :
    ∃ d, lookupD (reconcileAll D os) D = some d ∧
      d.latest_timestamp ∈ os.map Obs.timestamp ∧
      (∀ t ∈ os.map Obs.timestamp, t ≤ d.latest_timestamp) ∧
      (∀ u, u ∈ d.latest_urls ↔
        ∃ o ∈ os, o.timestamp = d.latest_timestamp ∧ o.url = u) := by
  match os, hne with
  | o :: os', _ =>
    refine ⟨os'.foldl stepData (freshData o), ?_, ?_⟩
    · unfold reconcileAll
      rw [List.foldl_cons]
      have h0 : update_domain_tracking [] D o = [(D, freshData o)] := rfl
      rw [h0, foldl_update_singleton]
      simp [lookupD]
    · have base1 : (freshData o).latest_timestamp ∈ ([o] : List Obs).map Obs.timestamp := by
        simp [freshData]
      have base2 : ∀ t ∈ ([o] : List Obs).map Obs.timestamp,
          t ≤ (freshData o).latest_timestamp := by
        intro t ht
        simp only [List.map_cons, List.map_nil, List.mem_singleton] at ht
        simp [freshData, ht]
      have base3 : ∀ u, u ∈ (freshData o).latest_urls ↔
          ∃ o' ∈ ([o] : List Obs), o'.timestamp = (freshData o).latest_timestamp ∧
            o'.url = u := by
        intro u
        simp only [freshData]
        constructor
        · intro hu
          rcases List.mem_singleton.mp hu with rfl
          exact ⟨o, List.mem_singleton.mpr rfl, rfl, rfl⟩
        · rintro ⟨o', ho', -, hurl⟩
          rcases List.mem_singleton.mp ho' with rfl
          exact List.mem_singleton.mpr hurl.symm
      have := foldl_stepData_inv os' (freshData o) [o] base1 base2 base3
      simpa using this

/-- Witness for C1 on a concrete two-observation history with a tie at the
maximum timestamp. -/
theorem ledger_latest_is_max_witness :
    (([{ url := "u1", tracking_params := [], timestamp := 5,
         sender := "s", click_ids := [] },
       { url := "u2", tracking_params := [], timestamp := 5,
         sender := "t", click_ids := [] }] : List Obs) ≠ []) ∧
    ∃ d, lookupD (reconcileAll "d.com"
        [{ url := "u1", tracking_params := [], timestamp := 5,
           sender := "s", click_ids := [] },
         { url := "u2", tracking_params := [], timestamp := 5,
           sender := "t", click_ids := [] }]) "d.com" = some d ∧
      d.latest_timestamp ∈
        ([{ url := "u1", tracking_params := [], timestamp := 5,
            sender := "s", click_ids := [] },
          { url := "u2", tracking_params := [], timestamp := 5,
            sender := "t", click_ids := [] }] : List Obs).map Obs.timestamp ∧
      (∀ t ∈ ([{ url := "u1", tracking_params := [], timestamp := 5,
                 sender := "s", click_ids := [] },
               { url := "u2", tracking_params := [], timestamp := 5,
                 sender := "t", click_ids := [] }] : List Obs).map Obs.timestamp,
        t ≤ d.latest_timestamp) ∧
      (∀ u, u ∈ d.latest_urls ↔
        ∃ o ∈ ([{ url := "u1", tracking_params := [], timestamp := 5,
                  sender := "s", click_ids := [] },
                { url := "u2", tracking_params := [], timestamp := 5,
                  sender := "t", click_ids := [] }] : List Obs),
          o.timestamp = d.latest_timestamp ∧ o.url = u) :=
  ⟨by simp, ledger_latest_is_max "d.com" _ (by simp)⟩

/-! ## Visitor lemmas: store growth and navigation provenance -/

theorem foldl_inv {α β : Type} (P : β → Prop) (f : β → α → β)
    (hf : ∀ b a, P b → P (f b a)) :
    ∀ (xs : List α) (b : β), P b → P (xs.foldl f b) := by
  intro xs
  induction xs with
  | nil => exact fun b hb => hb
  | cons x xs ih => exact fun b hb => ih _ (hf b x hb)

theorem store_sub_visit_url (v : List String) (nav : String → Bool) (u : String) :
    ∀ x ∈ v, x ∈ (visit_url v nav u).2 := by
  intro x hx
  simp only [visit_url]
  by_cases h1 : should_skip_url u = true
  · rw [if_pos h1]; exact List.mem_append.mpr (Or.inl hx)
  · rw [if_neg h1]
    by_cases h2 : get_domain u ∈ v
    · rw [if_pos h2]; exact hx
    · rw [if_neg h2]
      by_cases h3 : nav u = true
      · rw [if_pos h3]; exact List.mem_append.mpr (Or.inl hx)
      · rw [if_neg h3]; exact List.mem_append.mpr (Or.inl hx)

theorem store_sub_runBatch (nav : String → Bool) :
    ∀ (b : List (String × String)) (v : List String) (x : String),
      x ∈ v → x ∈ (runBatch v nav b).2 := by
  intro b
  induction b with
  | nil => intro v x hx; exact hx
  | cons p ps ih =>
    intro v x hx
    exact ih _ _ (store_sub_visit_url v nav p.1 x hx)

theorem store_sub_runSegs (nav : String → Bool) :
    ∀ (bs : List (List (String × String))) (v : List String) (x : String),
      x ∈ v → x ∈ (runSegs v nav bs).2 := by
  intro bs
  induction bs with
  | nil => intro v x hx; exact hx
  | cons b bs ih =>
    intro v x hx
    exact ih _ _ (store_sub_runBatch nav b v x hx)

/-- A navigation event for `u` can only come from `visit_url` on `u` itself,
and only when `u` passed the admission filter and its domain was not in the
store at that moment. -/
theorem navigate_mem_visit_url {v : List String} {nav : String → Bool}
    {w u : String} (h : VEvent.navigate u ∈ (visit_url v nav w).1) :
    w = u ∧ should_skip_url u = false ∧ get_domain u ∉ v := by
  simp only [visit_url] at h
  cases hb : should_skip_url w with
  | true =>
    rw [if_pos hb] at h
    rcases List.mem_singleton.mp h with heq
    cases heq
  | false =>
    rw [if_neg (by rw [hb]; exact Bool.false_ne_true)] at h
    by_cases h2 : get_domain w ∈ v
    · rw [if_pos h2] at h
      cases h
    · rw [if_neg h2] at h
      cases h3 : nav w with
      | true =>
        rw [if_pos h3] at h
        rcases List.mem_cons.mp h with heq | hrest
        · injection heq with h4
          subst h4
          exact ⟨rfl, hb, h2⟩
        · rcases List.mem_singleton.mp hrest with heq2
          cases heq2
      | false =>
        rw [if_neg (by rw [h3]; exact Bool.false_ne_true)] at h
        rcases List.mem_cons.mp h with heq | hrest
        · injection heq with h4
          subst h4
          exact ⟨rfl, hb, h2⟩
        · rcases List.mem_singleton.mp hrest with heq2
          cases heq2

theorem navigate_mem_runBatch (nav : String → Bool) (u : String) :
    ∀ (b : List (String × String)) (v : List String),
      VEvent.navigate u ∈ (runBatch v nav b).1 →
      should_skip_url u = false ∧ get_domain u ∉ v := by
  intro b
  induction b with
  | nil => intro v h; cases h
  | cons p ps ih =>
    intro v h
    simp only [runBatch] at h
    rcases List.mem_append.mp h with h | h
    · obtain ⟨-, hs, hd⟩ := navigate_mem_visit_url h
      exact ⟨hs, hd⟩
    · obtain ⟨hs, hd⟩ := ih _ h
      exact ⟨hs, fun hv => hd (store_sub_visit_url v nav p.1 _ hv)⟩

theorem navigate_mem_runSegs (nav : String → Bool) (u : String) :
    ∀ (bs : List (List (String × String))) (v : List String) (s : List VEvent),
      s ∈ (runSegs v nav bs).1 → VEvent.navigate u ∈ s →
      should_skip_url u = false ∧ get_domain u ∉ v := by
  intro bs
  induction bs with
  | nil => intro v s hs; cases hs
  | cons b bs ih =>
    intro v s hs hmem
    simp only [runSegs] at hs
    rcases List.mem_cons.mp hs with rfl | hs
    · exact navigate_mem_runBatch nav u b v hmem
    · obtain ⟨hskip, hd⟩ := ih _ _ hs hmem
      exact ⟨hskip, fun hv => hd (store_sub_runBatch nav b v _ hv)⟩

theorem navigate_mem_traceFrom (u : String) :
    ∀ (segs : List (List VEvent)) (i : Nat),
      VEvent.navigate u ∈ traceFrom i segs → ∃ s ∈ segs, VEvent.navigate u ∈ s := by
  intro segs
  induction segs with
  | nil => intro i h; cases h
  | cons s ss ih =>
    intro i h
    simp only [traceFrom] at h
    rcases List.mem_cons.mp h with heq | h
    · cases heq
    · rcases List.mem_append.mp h with h | h
      · exact ⟨s, List.mem_cons_self s ss, h⟩
      · obtain ⟨s', hs', hm⟩ := ih (i + 1) h
        exact ⟨s', List.mem_cons_of_mem s hs', hm⟩

/-- Any URL navigated during a run passed the admission filter and had a
domain absent from the Visit State Store loaded at the start of the run. -/
theorem navigate_mem_runTrace {W : Nat} {v : List String} {nav : String → Bool}
    {urls : List (String × String)} {u : String}
    (h : VEvent.navigate u ∈ runTrace W v nav urls) :
    should_skip_url u = false ∧ get_domain u ∉ v := by
  obtain ⟨s, hs, hm⟩ := navigate_mem_traceFrom u _ 0 h
  exact navigate_mem_runSegs nav u _ v s hs hm

/-! ## Claim C5: domain-level dedup of the Visitor input -/

theorem processUrlToken_inv (visited : List String) (ts rawUrl : String)
    (acc : List String × List (String × String)) (h : selInv visited acc) :
    selInv visited (processUrlToken visited acc ts rawUrl) := by
  obtain ⟨h1, h2, h3⟩ := h
  simp only [processUrlToken]
  by_cases hs : strStartsWith (pyStrip rawUrl) "http" = true
  · rw [if_pos hs]
    by_cases hd : get_domain (pyStrip rawUrl) ∉ acc.1 ∧ get_domain (pyStrip rawUrl) ∉ visited
    · rw [if_pos hd]
      refine ⟨?_, ?_, ?_⟩
      · intro p hp
        rcases List.mem_append.mp hp with hp | hp
        · exact List.mem_append.mpr (Or.inl (h1 p hp))
        · rcases List.mem_singleton.mp hp with rfl
          exact List.mem_append.mpr (Or.inr (List.mem_singleton.mpr rfl))
      · rw [List.pairwise_append]
        refine ⟨h2, List.pairwise_singleton _ _, ?_⟩
        intro a ha b hb
        rcases List.mem_singleton.mp hb with rfl
        intro hcontra
        exact hd.1 (hcontra ▸ h1 a ha)
      · intro p hp
        rcases List.mem_append.mp hp with hp | hp
        · exact h3 p hp
        · rcases List.mem_singleton.mp hp with rfl
          exact hd.2
    · rw [if_neg hd]; exact ⟨h1, h2, h3⟩
  · rw [if_neg hs]; exact ⟨h1, h2, h3⟩

theorem processRow_inv (visited : List String) (row : CsvRow)
    (acc : List String × List (String × String)) (h : selInv visited acc) :
    selInv visited (processRow visited acc row) := by
  simp only [processRow]
  cases row.latestUrls with
  | none => exact h
  | some s =>
    exact foldl_inv (selInv visited) _
      (fun b a hb => processUrlToken_inv visited row.latestTimestamp a b hb) _ _ h

/-- C5: the `(url, timestamp)` pairs the Visitor submits have pairwise
distinct domains, none already present in the Visit State Store; and no URL
whose domain is in the store at run start is ever navigated (dispatched to a
session slot) during the run. -/
theorem visitor_domain_dedup (visited : List String) (rows : List CsvRow) :
    (selectUrlsData visited rows).Pairwise
      (fun p q => get_domain p.1 ≠ get_domain q.1) ∧
    (∀ p ∈ selectUrlsData visited rows, get_domain p.1 ∉ visited) ∧
    (∀ (W : Nat) (nav : String → Bool) (u : String),
      VEvent.navigate u ∈ runTrace W visited nav (selectUrlsData visited rows) →
      get_domain u ∉ visited) := by
  have hinv : selInv visited (rows.foldl (processRow visited) ([], [])) :=
    foldl_inv (selInv visited) (processRow visited)
      (fun b a hb => processRow_inv visited a b hb) rows ([], [])
      ⟨by simp, List.Pairwise.nil, by simp⟩
  obtain ⟨-, h2, h3⟩ := hinv
  exact ⟨h2, h3, fun W nav u hnav => (navigate_mem_runTrace hnav).2⟩

/-- Witness for C5's navigation clause on a concrete run. -/
theorem visitor_domain_dedup_witness :
    VEvent.navigate "http://a.com/x" ∈
      runTrace 1 [] (fun _ => true) (selectUrlsData [] c5_rows) ∧
    get_domain "http://a.com/x" ∉ ([] : List String) :=
  ⟨by decide,
   (visitor_domain_dedup [] c5_rows).2.2 1 (fun _ => true) "http://a.com/x"
     (by decide)⟩

/-! ## Batch-slicing lemmas -/

theorem chunksFuel_eq (W : Nat) (hW : 0 < W) :
    ∀ (n fuel1 fuel2 : Nat) (l : List (String × String)),
      l.length ≤ n → l.length ≤ fuel1 → l.length ≤ fuel2 →
      chunksFuel W fuel1 l = chunksFuel W fuel2 l := by
  intro n
  induction n with
  | zero =>
    intro fuel1 fuel2 l hn _ _
    have : l = [] := List.length_eq_zero.mp (Nat.le_zero.mp hn)
    subst this
    cases fuel1 <;> cases fuel2 <;> rfl
  | succ n ih =>
    intro fuel1 fuel2 l hn h1 h2
    cases l with
    | nil => cases fuel1 <;> cases fuel2 <;> rfl
    | cons x xs =>
      cases fuel1 with
      | zero => simp at h1
      | succ f1 =>
        cases fuel2 with
        | zero => simp at h2
        | succ f2 =>
          simp only [chunksFuel]
          congr 1
          have hd : ((x :: xs).drop W).length = xs.length + 1 - W := by
            simp [List.length_drop]
          have hxs : xs.length ≤ n := by
            simp only [List.length_cons] at hn
            omega
          apply ih f1 f2 _ (by omega) (by
            simp only [List.length_cons] at h1
            omega) (by
            simp only [List.length_cons] at h2
            omega)

theorem chunks_nil (W : Nat) : chunks W [] = [] := by
  unfold chunks
  by_cases h : W = 0
  · rw [if_pos h]
  · rw [if_neg h]; rfl

theorem chunks_cons (W : Nat) (hW : 0 < W) (x : String × String)
    (xs : List (String × String)) :
    chunks W (x :: xs) =
      ((x :: xs).take W) :: chunks W ((x :: xs).drop W) := by
  have hWne : ¬ W = 0 := by omega
  unfold chunks
  rw [if_neg hWne, if_neg hWne]
  simp only [List.length_cons, chunksFuel]
  congr 1
  exact chunksFuel_eq W hW ((x :: xs).drop W).length xs.length
    ((x :: xs).drop W).length _ (le_refl _)
    (by simp [List.length_drop]; omega) (le_refl _)

theorem chunks_flatten (W : Nat) (hW : 0 < W) :
    ∀ (n : Nat) (l : List (String × String)), l.length ≤ n →
      (chunks W l).flatten = l := by
  intro n
  induction n with
  | zero =>
    intro l hn
    have : l = [] := List.length_eq_zero.mp (Nat.le_zero.mp hn)
    subst this
    rw [chunks_nil]
    rfl
  | succ n ih =>
    intro l hn
    cases l with
    | nil => rw [chunks_nil]; rfl
    | cons x xs =>
      rw [chunks_cons W hW]
      rw [List.flatten_cons]
      rw [ih ((x :: xs).drop W) (by
        simp only [List.length_drop, List.length_cons]
        simp only [List.length_cons] at hn
        omega)]
      exact List.take_append_drop W (x :: xs)

/-! ## Claim C6: disposition of filter-rejected URLs -/

theorem visit_url_skip {v : List String} {nav : String → Bool} {u : String}
    (hs : should_skip_url u = true) :
    visit_url v nav u =
      ([VEvent.record (get_domain u) VStatus.skipped], v ++ [get_domain u]) := by
  simp [visit_url, hs]

theorem skip_mem_runBatch (nav : String → Bool) (u ts : String)
    (hs : should_skip_url u = true) :
    ∀ (b : List (String × String)) (v : List String), (u, ts) ∈ b →
      VEvent.record (get_domain u) VStatus.skipped ∈ (runBatch v nav b).1 ∧
      get_domain u ∈ (runBatch v nav b).2 := by
  intro b
  induction b with
  | nil => intro v h; cases h
  | cons p ps ih =>
    intro v h
    rcases List.mem_cons.mp h with heq | hmem
    · have hp : p = (u, ts) := heq.symm
      subst hp
      simp only [runBatch, visit_url_skip hs]
      constructor
      · exact List.mem_append.mpr (Or.inl (List.mem_singleton.mpr rfl))
      · exact store_sub_runBatch nav ps _ _
          (List.mem_append.mpr (Or.inr (List.mem_singleton.mpr rfl)))
    · obtain ⟨he, hst⟩ := ih (visit_url v nav p.1).2 hmem
      simp only [runBatch]
      exact ⟨List.mem_append.mpr (Or.inr he), hst⟩

theorem skip_mem_runSegs (nav : String → Bool) (u ts : String)
    (hs : should_skip_url u = true) :
    ∀ (bs : List (List (String × String))) (v : List String),
      (∃ b ∈ bs, (u, ts) ∈ b) →
      (∃ s ∈ (runSegs v nav bs).1,
        VEvent.record (get_domain u) VStatus.skipped ∈ s) ∧
      get_domain u ∈ (runSegs v nav bs).2 := by
  intro bs
  induction bs with
  | nil =>
    rintro v ⟨b, hb, -⟩
    cases hb
  | cons b bs ih =>
    rintro v ⟨b', hb', hmem⟩
    rcases List.mem_cons.mp hb' with rfl | hb'
    · obtain ⟨he, hst⟩ := skip_mem_runBatch nav u ts hs b' v hmem
      simp only [runSegs]
      exact ⟨⟨(runBatch v nav b').1, List.mem_cons_self _ _, he⟩,
        store_sub_runSegs nav bs _ _ hst⟩
    · obtain ⟨⟨s, hsmem, he⟩, hst⟩ := ih (runBatch v nav b).2 ⟨b', hb', hmem⟩
      simp only [runSegs]
      exact ⟨⟨s, List.mem_cons_of_mem _ hsmem, he⟩, hst⟩

theorem mem_traceFrom_of_mem_seg :
    ∀ (segs : List (List VEvent)) (i : Nat) (s : List VEvent) (e : VEvent),
      s ∈ segs → e ∈ s → e ∈ traceFrom i segs := by
  intro segs
  induction segs with
  | nil => intro i s e hs; cases hs
  | cons s0 ss ih =>
    intro i s e hs he
    simp only [traceFrom]
    rcases List.mem_cons.mp hs with rfl | hs
    · exact List.mem_cons_of_mem _ (List.mem_append.mpr (Or.inl he))
    · exact List.mem_cons_of_mem _
        (List.mem_append.mpr (Or.inr (ih (i + 1) s e hs he)))

/-- C6 (amended): a filter-rejected URL that is dispatched in some batch is
recorded in the Visit State Store with status `skipped` when its slot
processes it; no navigation is ever issued for it during the run, and its
domain enters the store (so it counts toward dedup and later runs drop it).
It is however recorded at its slot's turn, not before earlier batches
navigate. -/
theorem skip_recorded_on_dispatch (W : Nat) (visited : List String)
    (nav : String → Bool) (urls : List (String × String)) (u ts : String)
    (hW : 0 < W) (hmem : (u, ts) ∈ urls) (hskip : should_skip_url u = true) :
    VEvent.record (get_domain u) VStatus.skipped ∈ runTrace W visited nav urls ∧
    VEvent.navigate u ∉ runTrace W visited nav urls ∧
    get_domain u ∈ runFinalStore W visited nav urls := by
  have hmem' : ∃ b ∈ chunks W urls, (u, ts) ∈ b := by
    have hfl := chunks_flatten W hW urls.length urls (le_refl _)
    rw [← hfl] at hmem
    exact List.mem_flatten.mp hmem
  obtain ⟨⟨s, hsmem, hrec⟩, hstore⟩ :=
    skip_mem_runSegs nav u ts hskip (chunks W urls) visited hmem'
  refine ⟨mem_traceFrom_of_mem_seg _ 0 _ _ hsmem hrec, ?_, hstore⟩
  intro hnav
  obtain ⟨hf, -⟩ := navigate_mem_runTrace hnav
  rw [hskip] at hf
  cases hf

/-- Witness for C6's amended theorem on a one-URL run. -/
theorem skip_recorded_on_dispatch_witness :
    (0 < 1 ∧ ("http://b.com/a.png", "t") ∈ [("http://b.com/a.png", "t")] ∧
      should_skip_url "http://b.com/a.png" = true) ∧
    (VEvent.record (get_domain "http://b.com/a.png") VStatus.skipped ∈
        runTrace 1 [] (fun _ => false) [("http://b.com/a.png", "t")] ∧
      VEvent.navigate "http://b.com/a.png" ∉
        runTrace 1 [] (fun _ => false) [("http://b.com/a.png", "t")] ∧
      get_domain "http://b.com/a.png" ∈
        runFinalStore 1 [] (fun _ => false) [("http://b.com/a.png", "t")]) :=
  ⟨⟨by decide, by decide, by decide⟩,
   skip_recorded_on_dispatch 1 [] (fun _ => false) [("http://b.com/a.png", "t")]
     "http://b.com/a.png" "t" (by decide) (by decide) (by decide)⟩

/-- C6, as stated, is false: the admission filter runs inside `visit_url`
during the URL's own batch, not before visiting begins, so a rejected URL
in a later batch is recorded `skipped` only after earlier batches have
already navigated.  In this concrete two-URL run with width 1, the
navigation of the first URL precedes the `skipped` record of the rejected
second URL. -/
theorem skipped_after_navigation_counterexample :
    should_skip_url "http://b.com/a.png" = true ∧
    c6_trace = [VEvent.batchStart 0, VEvent.navigate "http://a.com/x",
      VEvent.record "a.com" VStatus.successful, VEvent.batchStart 1,
      VEvent.record "b.com" VStatus.skipped] ∧
    VEvent.navigate "http://a.com/x" ∈ c6_trace.take 3 ∧
    VEvent.record "b.com" VStatus.skipped ∉ c6_trace.take 3 ∧
    VEvent.record "b.com" VStatus.skipped ∈ c6_trace :=
  ⟨by decide, by decide, by decide, by decide, by decide⟩

/-! ## Claim C4: batch shape, slot assignment and the gather barrier -/

theorem runBatch_admitted (nav : String → Bool) :
    ∀ (b : List (String × String)) (v : List String),
      (∀ p ∈ b, should_skip_url p.1 = false) →
      (∀ p ∈ b, get_domain p.1 ∉ v) →
      b.Pairwise (fun p q => get_domain p.1 ≠ get_domain q.1) →
      runBatch v nav b =
        (b.flatMap (itemEvs nav), v ++ b.map (fun p => get_domain p.1)) := by
  intro b
  induction b with
  | nil => intro v _ _ _; simp [runBatch]
  | cons p ps ih =>
    intro v hskip hfresh hpw
    have hp : should_skip_url p.1 = false := hskip p (List.mem_cons_self p ps)
    have hd : get_domain p.1 ∉ v := hfresh p (List.mem_cons_self p ps)
    have hvisit : visit_url v nav p.1 = (itemEvs nav p, v ++ [get_domain p.1]) := by
      cases hn : nav p.1 with
      | true => simp [visit_url, itemEvs, hp, hd, hn]
      | false => simp [visit_url, itemEvs, hp, hd, hn]
    obtain ⟨hpw1, hpw2⟩ := List.pairwise_cons.mp hpw
    have ihh := ih (v ++ [get_domain p.1])
      (fun q hq => hskip q (List.mem_cons_of_mem p hq))
      (fun q hq hv => by
        rcases List.mem_append.mp hv with hv | hv
        · exact hfresh q (List.mem_cons_of_mem p hq) hv
        · rcases List.mem_singleton.mp hv with heq
          exact hpw1 q hq heq.symm)
      hpw2
    simp only [runBatch, hvisit, ihh, List.flatMap_cons, List.map_cons]
    simp [List.append_assoc]

theorem runSegs_admitted (nav : String → Bool) :
    ∀ (bs : List (List (String × String))) (v : List String),
      (∀ p ∈ bs.flatten, should_skip_url p.1 = false) →
      (∀ p ∈ bs.flatten, get_domain p.1 ∉ v) →
      bs.flatten.Pairwise (fun p q => get_domain p.1 ≠ get_domain q.1) →
      (runSegs v nav bs).1 = bs.map (fun b => b.flatMap (itemEvs nav)) := by
  intro bs
  induction bs with
  | nil => intro v _ _ _; rfl
  | cons b bs ih =>
    intro v hskip hfresh hpw
    rw [List.flatten_cons] at hskip hfresh hpw
    rw [List.pairwise_append] at hpw
    obtain ⟨hpw1, hpw2, hcross⟩ := hpw
    have hb := runBatch_admitted nav b v
      (fun p hp => hskip p (List.mem_append.mpr (Or.inl hp)))
      (fun p hp => hfresh p (List.mem_append.mpr (Or.inl hp)))
      hpw1
    simp only [runSegs, hb, List.map_cons]
    congr 1
    exact ih (v ++ b.map (fun p => get_domain p.1))
      (fun p hp => hskip p (List.mem_append.mpr (Or.inr hp)))
      (fun p hp hv => by
        rcases List.mem_append.mp hv with hv | hv
        · exact hfresh p (List.mem_append.mpr (Or.inr hp)) hv
        · obtain ⟨q, hq, hqd⟩ := List.mem_map.mp hv
          exact (hcross q hq p hp) hqd)
      hpw2

theorem batchStart_not_mem_itemEvs (nav : String → Bool) (p : String × String)
    (k : Nat) : VEvent.batchStart k ∉ itemEvs nav p := by
  simp [itemEvs]

theorem batchStart_not_mem_flatMap (nav : String → Bool)
    (b : List (String × String)) (k : Nat) :
    VEvent.batchStart k ∉ b.flatMap (itemEvs nav) := by
  intro h
  obtain ⟨p, -, hp⟩ := List.mem_flatMap.mp h
  exact batchStart_not_mem_itemEvs nav p k hp

theorem traceFrom_count_batchStart (j : Nat) :
    ∀ (segs : List (List VEvent)) (i : Nat),
      (∀ s ∈ segs, ∀ k, VEvent.batchStart k ∉ s) →
      (traceFrom i segs).count (VEvent.batchStart j) =
        if i ≤ j ∧ j < i + segs.length then 1 else 0 := by
  intro segs
  induction segs with
  | nil =>
    intro i _
    simp only [traceFrom, List.count_nil, List.length_nil]
    rw [if_neg (by omega)]
  | cons s ss ih =>
    intro i hni
    simp only [traceFrom]
    rw [List.count_cons, List.count_append]
    rw [List.count_eq_zero.mpr (fun hmem => hni s (List.mem_cons_self s ss) j hmem)]
    rw [ih (i + 1) (fun s' hs' => hni s' (List.mem_cons_of_mem s hs'))]
    simp only [beq_iff_eq, VEvent.batchStart.injEq, List.length_cons]
    split_ifs <;> omega

theorem traceFrom_split :
    ∀ (m : Nat) (segs : List (List VEvent)) (i : Nat), m < segs.length →
      ∃ pre post, traceFrom i segs = pre ++ VEvent.batchStart (i + m) :: post ∧
        ∀ s ∈ segs.take m, ∀ e ∈ s, e ∈ pre := by
  intro m
  induction m with
  | zero =>
    intro segs i hm
    cases segs with
    | nil => simp at hm
    | cons s ss =>
      refine ⟨[], s ++ traceFrom (i + 1) ss, by simp [traceFrom], ?_⟩
      intro s' hs'
      simp at hs'
  | succ m ih =>
    intro segs i hm
    cases segs with
    | nil => simp at hm
    | cons s ss =>
      have hm' : m < ss.length := by
        simp only [List.length_cons] at hm
        omega
      obtain ⟨pre', post', heq, hmem⟩ := ih ss (i + 1) hm'
      refine ⟨VEvent.batchStart i :: (s ++ pre'), post', ?_, ?_⟩
      · show VEvent.batchStart i :: (s ++ traceFrom (i + 1) ss) = _
        rw [heq]
        have harith : i + 1 + m = i + (m + 1) := by omega
        rw [← harith]
        simp [List.append_assoc]
      · intro s' hs' e he
        rw [List.take_succ_cons] at hs'
        rcases List.mem_cons.mp hs' with rfl | hs'
        · exact List.mem_cons_of_mem _ (List.mem_append.mpr (Or.inl he))
        · exact List.mem_cons_of_mem _
            (List.mem_append.mpr (Or.inr (hmem s' hs' e he)))

theorem split_unique_of_count_one {α : Type} [DecidableEq α] (a : α) :
    ∀ (p1 s1 p2 s2 : List α),
      p1 ++ a :: s1 = p2 ++ a :: s2 → (p1 ++ a :: s1).count a = 1 → p1 = p2 := by
  intro p1
  induction p1 with
  | nil =>
    intro s1 p2 s2 heq hcount
    cases p2 with
    | nil => rfl
    | cons y p2' =>
      exfalso
      rw [List.nil_append, List.cons_append] at heq
      injection heq with h1 h2
      subst h1
      rw [List.nil_append, List.count_cons] at hcount
      rw [beq_self_eq_true, if_pos rfl] at hcount
      have hz : s1.count a = 0 := by omega
      have hmem : a ∈ s1 := by
        rw [h2]
        exact List.mem_append.mpr (Or.inr (List.mem_cons_self a s2))
      exact (List.count_eq_zero.mp hz) hmem
  | cons x p1' ih =>
    intro s1 p2 s2 heq hcount
    cases p2 with
    | nil =>
      exfalso
      rw [List.cons_append, List.nil_append] at heq
      injection heq with h1 h2
      subst h1
      rw [List.cons_append, List.count_cons] at hcount
      rw [beq_self_eq_true, if_pos rfl] at hcount
      have hz : (p1' ++ x :: s1).count x = 0 := by omega
      have hmem : x ∈ p1' ++ x :: s1 :=
        List.mem_append.mpr (Or.inr (List.mem_cons_self x s1))
      exact (List.count_eq_zero.mp hz) hmem
    | cons y p2' =>
      rw [List.cons_append, List.cons_append] at heq
      injection heq with h1 h2
      subst h1
      rw [List.cons_append, List.count_cons] at hcount
      by_cases hxa : x = a
      · exfalso
        subst hxa
        rw [beq_self_eq_true, if_pos rfl] at hcount
        have hz : (p1' ++ x :: s1).count x = 0 := by omega
        have hmem : x ∈ p1' ++ x :: s1 :=
          List.mem_append.mpr (Or.inr (List.mem_cons_self x s1))
        exact (List.count_eq_zero.mp hz) hmem
      · have hbeq : (x == a) = false := beq_eq_false_iff_ne.mpr hxa
        rw [hbeq, if_neg Bool.false_ne_true] at hcount
        rw [ih s1 p2' s2 h2 (by omega)]

theorem forall₂_mem_right {α β : Type} {R : α → β → Prop} :
    ∀ {l1 : List α} {l2 : List β}, List.Forall₂ R l1 l2 →
      ∀ {b : β}, b ∈ l2 → ∃ a ∈ l1, R a b := by
  intro l1 l2 h
  induction h with
  | nil => intro b hb; cases hb
  | @cons a b l1' l2' hr _ ih =>
    intro c hc
    rcases List.mem_cons.mp hc with rfl | hc
    · exact ⟨a, List.mem_cons_self a l1', hr⟩
    · obtain ⟨a', ha', hr'⟩ := ih hc
      exact ⟨a', List.mem_cons_of_mem a ha', hr'⟩

theorem forall₂_getElem? {α β : Type} {R : α → β → Prop} :
    ∀ {l1 : List α} {l2 : List β}, List.Forall₂ R l1 l2 →
      ∀ {k : Nat} {a : α}, l1[k]? = some a → ∃ b, l2[k]? = some b ∧ R a b := by
  intro l1 l2 h
  induction h with
  | nil => intro k a ha; cases k <;> cases ha
  | @cons x y l1' l2' hr _ ih =>
    intro k a ha
    cases k with
    | zero =>
      rw [List.getElem?_cons_zero] at ha
      injection ha with ha
      subst ha
      exact ⟨y, List.getElem?_cons_zero, hr⟩
    | succ k =>
      rw [List.getElem?_cons_succ] at ha
      obtain ⟨b, hb, hr'⟩ := ih ha
      exact ⟨b, by rw [List.getElem?_cons_succ]; exact hb, hr'⟩

theorem mem_take_of_getElem? {α : Type} :
    ∀ (l : List α) (k : Nat) (a : α), l[k]? = some a → a ∈ l.take (k + 1) := by
  intro l
  induction l with
  | nil => intro k a h; cases k <;> cases h
  | cons x xs ih =>
    intro k a h
    cases k with
    | zero =>
      rw [List.getElem?_cons_zero] at h
      injection h with h
      subst h
      rw [List.take_succ_cons]
      exact List.mem_cons_self _ _
    | succ k =>
      rw [List.getElem?_cons_succ] at h
      rw [List.take_succ_cons]
      exact List.mem_cons_of_mem _ (ih k a h)

theorem sessionAssignment_getElem (W : Nat) (b : List (String × String)) (j : Nat)
    (p : String × String) (h : b[j]? = some p) :
    (sessionAssignment W b)[j]? = some (p, j % W) := by
  simp only [sessionAssignment]
  rw [List.getElem?_map, List.getElem?_enum, h]
  rfl

theorem chunks_two_of_length_five (urls : List (String × String))
    (h : urls.length = 5) : (chunks 2 urls).map List.length = [2, 2, 1] := by
  match urls, h with
  | [a, b, c, d, e], _ => rfl

/-- C4: with width 2 and five admitted fresh-domain pairs, the run slices
the input into exactly three batches of sizes 2, 2, 1; the j-th item of a
batch runs on session slot `j % 2`; and in every trace obtained by
reordering each batch's gathered events arbitrarily, every item of batch k
has a recorded outcome strictly before the `batchStart (k+1)` barrier. -/
theorem visitor_batch_schedule (visited : List String) (nav : String → Bool)
    (urls : List (String × String))
    (hlen : urls.length = 5)
    (hskip : ∀ p ∈ urls, should_skip_url p.1 = false)
    (hfresh : ∀ p ∈ urls, get_domain p.1 ∉ visited)
    (hdist : urls.Pairwise (fun p q => get_domain p.1 ≠ get_domain q.1)) :
    ((chunks 2 urls).map List.length = [2, 2, 1]) ∧
    (∀ b ∈ chunks 2 urls, ∀ (j : Nat) (p : String × String),
      b[j]? = some p → (sessionAssignment 2 b)[j]? = some (p, j % 2)) ∧
    (∀ segs, List.Forall₂ (fun s s' => s.Perm s')
        ((runSegs visited nav (chunks 2 urls)).1) segs →
      ∀ k, k + 1 < (chunks 2 urls).length →
      ∀ pre post, traceFrom 0 segs = pre ++ VEvent.batchStart (k + 1) :: post →
      ∀ b, (chunks 2 urls)[k]? = some b →
      ∀ p ∈ b, ∃ st, VEvent.record (get_domain p.1) st ∈ pre) := by
  refine ⟨chunks_two_of_length_five urls hlen,
    fun b _ j p h => sessionAssignment_getElem 2 b j p h, ?_⟩
  intro segs hperm k hk pre post hsplit b hb p hp
  have hflat : (chunks 2 urls).flatten = urls :=
    chunks_flatten 2 (by omega) urls.length urls (le_refl _)
  have hcanon : (runSegs visited nav (chunks 2 urls)).1 =
      (chunks 2 urls).map (fun b => b.flatMap (itemEvs nav)) :=
    runSegs_admitted nav (chunks 2 urls) visited
      (by rw [hflat]; exact hskip) (by rw [hflat]; exact hfresh)
      (by rw [hflat]; exact hdist)
  rw [hcanon] at hperm
  have hnb : ∀ s ∈ segs, ∀ j, VEvent.batchStart j ∉ s := by
    intro s hs j hmem
    obtain ⟨s0, hs0, hr⟩ := forall₂_mem_right hperm hs
    obtain ⟨b0, -, hb0⟩ := List.mem_map.mp hs0
    subst hb0
    exact batchStart_not_mem_flatMap nav b0 j (hr.mem_iff.mpr hmem)
  have hlensegs : segs.length = (chunks 2 urls).length := by
    have := List.Forall₂.length_eq hperm
    simp only [List.length_map] at this
    omega
  have hcount : (traceFrom 0 segs).count (VEvent.batchStart (k + 1)) = 1 := by
    rw [traceFrom_count_batchStart (k + 1) segs 0 hnb]
    rw [if_pos (by omega)]
  have hmlt : k + 1 < segs.length := by omega
  obtain ⟨pre0, post0, heq0, hmem0⟩ := traceFrom_split (k + 1) segs 0 hmlt
  rw [Nat.zero_add] at heq0
  have hpre : pre = pre0 :=
    split_unique_of_count_one (VEvent.batchStart (k + 1)) pre post pre0 post0
      (hsplit.symm.trans heq0) (by rw [← hsplit]; exact hcount)
  have hcank : ((chunks 2 urls).map (fun b => b.flatMap (itemEvs nav)))[k]? =
      some (b.flatMap (itemEvs nav)) := by
    rw [List.getElem?_map, hb]
    rfl
  obtain ⟨s', hs', hperm'⟩ := forall₂_getElem? hperm hcank
  have hrec : VEvent.record (get_domain p.1)
      (if nav p.1 then VStatus.successful else VStatus.failed) ∈
        b.flatMap (itemEvs nav) :=
    List.mem_flatMap.mpr ⟨p, hp, by simp [itemEvs]⟩
  have hrec' := hperm'.mem_iff.mp hrec
  have hs'take : s' ∈ segs.take (k + 1) := mem_take_of_getElem? segs k s' hs'
  exact ⟨_, hpre ▸ hmem0 s' hs'take _ hrec'⟩

/-- Witness for C4 on five concrete admitted URLs with distinct domains. -/
theorem visitor_batch_schedule_witness :
    c4_urls.length = 5 ∧
    c4_urls.Pairwise (fun p q => get_domain p.1 ≠ get_domain q.1) ∧
    (chunks 2 c4_urls).map List.length = [2, 2, 1] :=
  ⟨rfl, by decide,
   (visitor_batch_schedule [] (fun _ => true) c4_urls rfl (by decide)
     (by decide) (by decide)).1⟩

end GmailNoiser
